import Mathlib

/-!
Verification development for the reflection-merging core of gemmi
(`include/gemmi/merge.hpp`): the canonical reflection model (`Intensities`),
the validity filter (`add_if_valid`), the symmetry reduction
(`switch_to_asu_indices`), the systematic-absence filter, the weighted
merge (`merge_in_place`) and the derived resolution statistics.

Modelling conventions:
* `double` values flowing through the merge arithmetic are modelled as real
  numbers (`ℝ`); raw values read from files, where NaN/±infinity handling
  matters, are modelled by the inductive type `Fq` over `ℚ`.
* The unit-cell metric, the space-group tables and the reciprocal-space
  asymmetric-unit oracle live in headers outside the visible core
  (`unitcell.hpp`, `symmetry.hpp`); the spec lists them as external
  collaborators, so they are modelled as capability records
  (`UnitCell`, `SpaceGroup`) whose fields are the functions the core calls.
* C++ exceptions thrown by `fail(msg)` are modelled with
  `Except ReadError`; a dereference of a null `spacegroup` pointer (which
  in C++ is undefined behaviour, not a thrown error) is modelled as the
  distinguished outcome `ReadError.nullDeref`.
-/

namespace GemmiMerge

/-- Miller index `(h, k, l)`: gemmi's `Miller = std::array<int,3>`. -/
structure Miller where
  h : ℤ
  k : ℤ
  l : ℤ
deriving DecidableEq, Repr

/-- Model of a C++ `double` as read from a file: a finite rational,
NaN, or a signed infinity.  Used for the ingestion layer, where the
validity filter's NaN test and IEEE comparisons matter. -/
inductive Fq where
  | finite (q : ℚ)
  | nan
  | posInf
  | negInf
deriving DecidableEq, Repr

/-- `std::isnan`. -/
def Fq.isNaN : Fq → Bool
  | .nan => true
  | _ => false

/-- The IEEE comparison `x > 0` (false on NaN). -/
def Fq.gtZero : Fq → Bool
  | .finite q => decide (0 < q)
  | .posInf => true
  | _ => false

/-- `std::isfinite` (used to state the spec's "finite" wording). -/
def Fq.isFiniteV : Fq → Bool
  | .finite _ => true
  | _ => false

/-- Truncation toward zero, as the C cast `(int)x`.  The cast of NaN or an
infinity is undefined behaviour in C++; the model returns 0 there (no claim
depends on that branch). -/
def Fq.toInt : Fq → ℤ
  | .finite q => if q < 0 then -(⌊-q⌋) else ⌊q⌋
  | _ => 0

/-- `Intensities::Refl`: one observation.  `isign` is the sign tag with the
source encoding `1` for I(+), `-1` for I(-), `0` for no Friedel distinction.
The value/sigma component type is a parameter: `ℝ` for the merge arithmetic,
`Fq` for raw file data. -/
structure Refl (α : Type) where
  hkl : Miller
  isign : ℤ
  value : α
  sigma : α
deriving DecidableEq

/-- The `(index, sign)` sort key `(h, k, l, isign)`. -/
def Refl.key {α : Type} (r : Refl α) : ℤ × ℤ × ℤ × ℤ :=
  (r.hkl.h, r.hkl.k, r.hkl.l, r.isign)

/-- Lexicographic `<` on the key, as `Refl::operator<` does with
`std::tie(hkl[0], hkl[1], hkl[2], isign)`. -/
def keyLt (a b : ℤ × ℤ × ℤ × ℤ) : Bool :=
  decide (a.1 < b.1 ∨ (a.1 = b.1 ∧ (a.2.1 < b.2.1 ∨ (a.2.1 = b.2.1 ∧
    (a.2.2.1 < b.2.2.1 ∨ (a.2.2.1 = b.2.2.1 ∧ a.2.2.2 < b.2.2.2))))))

/-- `Refl::operator<`. -/
def Refl.lt {α : Type} (a b : Refl α) : Bool := keyLt a.key b.key

/-- The non-strict comparator induced by `operator<` (what a sorted vector
satisfies between adjacent elements): `a ≤ b` iff `¬(b < a)`. -/
def Refl.le {α : Type} (a b : Refl α) : Bool := !(Refl.lt b a)

/-- Key equality, as the merge loop's
`out->hkl != in->hkl || out->isign != in->isign` (negated). -/
def Refl.sameKey {α : Type} (a b : Refl α) : Bool :=
  decide (a.hkl = b.hkl) && decide (a.isign = b.isign)

/-- Outcome of a failed ingestion: `failMsg` models a `fail(...)` throw,
`nullDeref` models the undefined behaviour of dereferencing a null
`spacegroup` pointer. -/
inductive ReadError where
  | failMsg (msg : String)
  | nullDeref
deriving DecidableEq, Repr

/-- Modelled from the spec: the Symmetry Oracle (external collaborator,
`symmetry.hpp` is outside the visible core).  Per spec section 6 it offers
`is_in_asymmetric_unit`, `reduce_to_asymmetric_unit` (returning the
representative index and the symmetry-operation identifier), and
`is_systematically_absent`, all deterministic and total.  `asu_is_in` and
`asu_to` stand for the `ReciprocalAsu` methods `is_in` and `to_asu`;
`absent` for `GroupOps::is_systematically_absent`. -/
structure SpaceGroup where
  number : ℕ
  asu_is_in : Miller → Bool
  asu_to : Miller → Miller × ℤ
  absent : Miller → Bool

/-- Modelled from the spec: `GroupOps`, the symmetry-operation capability
obtained from `SpaceGroup::operations()`. -/
structure GroupOps where
  is_systematically_absent : Miller → Bool

/-- `SpaceGroup::operations()`. -/
def SpaceGroup.operations (sg : SpaceGroup) : GroupOps := ⟨sg.absent⟩

/-- Modelled from the spec: the unit-cell metric capability
(`UnitCell::calculate_1_d2`, defined in `unitcell.hpp` outside the visible
core) computing the reciprocal squared spacing of a Miller index. -/
structure UnitCell (α : Type) where
  calculate_1_d2 : Miller → α

/-- The `Intensities` set: observation sequence plus crystal metadata.
The C++ `const SpaceGroup* spacegroup` (a possibly null pointer) is an
`Option SpaceGroup`. -/
structure Intensities (α : Type) where
  data : List (Refl α)
  spacegroup : Option SpaceGroup
  unit_cell : UnitCell α
  wavelength : α

section MergeDefs

variable {α : Type} [DivisionRing α]

/-- The weight `w = 1 / (sigma * sigma)` of the merge loop. -/
def wgt (r : Refl α) : α := 1 / (r.sigma * r.sigma)

/-- Emitting one merged observation: the run head's key with
`value = sum_wI / sum_w` and `sigma = 1 / sqrt(sum_w)`. -/
def emitRun (sqrtF : α → α) (head : Refl α) (swi sw : α) : Refl α :=
  { head with value := swi / sw, sigma := 1 / sqrtF sw }

/-- The single linear pass of `merge_in_place` after sorting: `head` holds
the key of the current run (the C++ `out` slot), `swi`/`sw` the
accumulators `sum_wI`/`sum_w` already including the consumed part of the
run; on a key change the current run is emitted and the accumulators
restart from the new element. -/
def scanRuns (sqrtF : α → α) : Refl α → α → α → List (Refl α) → List (Refl α)
  | head, swi, sw, [] => [emitRun sqrtF head swi sw]
  | head, swi, sw, r :: rest =>
    if Refl.sameKey head r then
      scanRuns sqrtF head (swi + wgt r * r.value) (sw + wgt r) rest
    else
      emitRun sqrtF head swi sw :: scanRuns sqrtF r (wgt r * r.value) (wgt r) rest

/-- `Intensities::sort()`, i.e. `std::sort` with `Refl::operator<`.
`std::sort` yields an unspecified sorted permutation; it is modelled by
merge sort, one such permutation (the determinism theorem below shows the
merged result does not depend on which sorted permutation is produced). -/
def sortData {β : Type} (l : List (Refl β)) : List (Refl β) :=
  l.mergeSort Refl.le

/-- The scan applied to a whole (sorted) list: the first element seeds the
run head and the accumulators (in C++, the first loop iteration finds
`out == in` and only accumulates). -/
def mergeScan (sqrtF : α → α) : List (Refl α) → List (Refl α)
  | [] => []
  | h :: t => scanRuns sqrtF h (wgt h * h.value) (wgt h) t

/-- `Intensities::merge_in_place(bool output_plus_minus)` acting on the
observation list: empty check, optional sign discard, sort, linear
combine. -/
def mergeData (sqrtF : α → α) (output_plus_minus : Bool) (l : List (Refl α)) :
    List (Refl α) :=
  if l.isEmpty then l
  else
    mergeScan sqrtF
      (sortData (if output_plus_minus then l
                 else l.map fun r => { r with isign := 0 }))

/-- `Intensities::merge_in_place` on the whole set. -/
def Intensities.merge_in_place (sqrtF : α → α) (output_plus_minus : Bool)
    (i : Intensities α) : Intensities α :=
  { i with data := mergeData sqrtF output_plus_minus i.data }

end MergeDefs

/-- `Intensities::sort()` on the whole set. -/
def Intensities.sort {α : Type} (i : Intensities α) : Intensities α :=
  { i with data := sortData i.data }

/-- `Intensities::resolution_range`: extrema of the reciprocal squared
spacing `1/d²` over all observations, seeded with `INFINITY` (modelled by
`⊤ : WithTop α`) and `0`, returned as `(1/sqrt(min), 1/sqrt(max))`.
The `untop' 0` branch is only reached on empty data, which the spec
declares a precondition violation. -/
def Intensities.resolution_range {α : Type} [LinearOrderedField α]
    (sqrtF : α → α) (i : Intensities α) : α × α :=
  let p := i.data.foldl
    (fun acc r =>
      (min acc.1 ((i.unit_cell.calculate_1_d2 r.hkl : α) : WithTop α),
       max acc.2 (i.unit_cell.calculate_1_d2 r.hkl)))
    ((⊤ : WithTop α), (0 : α))
  (1 / sqrtF (p.1.untop' 0), 1 / sqrtF p.2)

/-- `Intensities::copy_metadata`: copy cell and space group from a source,
failing when the source's space group pointer is null. -/
def Intensities.copy_metadata {α : Type} (i : Intensities α)
    (cell : UnitCell α) (sg : Option SpaceGroup) :
    Except ReadError (Intensities α) :=
  match sg with
  | none => .error (.failMsg "unknown space group")
  | some s => .ok { i with unit_cell := cell, spacegroup := some s }

/-- `Intensities::remove_systematic_absences`: with a null space group the
function returns immediately; otherwise `vector_remove_if` drops the
systematically absent reflections (an order-preserving filter). -/
def Intensities.remove_systematic_absences {α : Type} (i : Intensities α) :
    Intensities α :=
  match i.spacegroup with
  | none => i
  | some sg =>
    { i with data :=
        i.data.filter fun x => !(sg.operations.is_systematically_absent x.hkl) }

/-- The per-observation action of `switch_to_asu_indices`: an index already
inside the asymmetric unit is left untouched; otherwise the index is
replaced by `to_asu`'s representative and, in unmerged mode
(`merged = false`), the sign is set from the parity of the returned
symmetry-operation identifier (`isym % 2 == 0 ? -1 : 1`). -/
def asuMapRefl {α : Type} (sg : SpaceGroup) (merged : Bool) (r : Refl α) :
    Refl α :=
  if sg.asu_is_in r.hkl then r
  else
    let p := sg.asu_to r.hkl
    { r with hkl := p.1,
             isign := if merged then r.isign
                      else if p.2 % 2 = 0 then -1 else 1 }

/-- The loop of `switch_to_asu_indices` over the observation list. -/
def switchToAsuData {α : Type} (sg : SpaceGroup) (merged : Bool)
    (l : List (Refl α)) : List (Refl α) :=
  l.map (asuMapRefl sg merged)

/-- `Intensities::switch_to_asu_indices(bool merged=false)`.  The C++ body
dereferences `spacegroup` unconditionally (`spacegroup->operations()`), so
a null space group is the undefined-behaviour outcome `nullDeref`. -/
def Intensities.switch_to_asu_indices {α : Type} (merged : Bool)
    (i : Intensities α) : Except ReadError (Intensities α) :=
  match i.spacegroup with
  | none => .error .nullDeref
  | some sg => .ok { i with data := switchToAsuData sg merged i.data }

/-! ### Validity filter and the format-adapter ingestion loop -/

/-- The acceptance test of `add_if_valid`:
`!std::isnan(refl.value) && refl.sigma > 0`. -/
def acceptRefl (r : Refl Fq) : Bool := !r.value.isNaN && r.sigma.gtZero

/-- `Intensities::add_if_valid`: push the observation iff it passes the
validity test, else leave the list unchanged (silent drop). -/
def addIfValid (data : List (Refl Fq)) (r : Refl Fq) : List (Refl Fq) :=
  if acceptRefl r then data ++ [r] else data

/-- The format-adapter capability of spec section 4.1 / the C++
`DataProxy` concept: size, stride and per-position accessors. -/
structure DataProxy where
  size : ℕ
  stride : ℕ
  get_hkl : ℕ → Miller
  get_num : ℕ → Fq

/-- The positions `0, stride, 2*stride, ...` below `size` visited by the
C++ loop `for (i = 0; i < size; i += stride)`.  A zero stride would loop
forever in C++; the model returns no rows there. -/
def rowStarts (size stride : ℕ) : List ℕ :=
  if stride = 0 then []
  else (List.range ((size + stride - 1) / stride)).map (· * stride)

/-- The row positions of a proxy. -/
def DataProxy.rows (p : DataProxy) : List ℕ := rowStarts p.size p.stride

/-- The observation built by one iteration of `read_data` (the `isign`
field keeps its default 0). -/
def readDataRefl (p : DataProxy) (value_idx sigma_idx i : ℕ) : Refl Fq :=
  { hkl := p.get_hkl i, isign := 0,
    value := p.get_num (i + value_idx), sigma := p.get_num (i + sigma_idx) }

/-- `Intensities::read_data`: walk the proxy rows and `add_if_valid` each
constructed observation. -/
def Intensities.read_data (i : Intensities Fq) (p : DataProxy)
    (value_idx sigma_idx : ℕ) : Intensities Fq :=
  let d := p.rows.foldl
    (fun d j => addIfValid d (readDataRefl p value_idx sigma_idx j)) i.data
  { i with data := d }

/-! ### The MTZ unmerged reader -/

/-- An MTZ column: label, position, owning dataset (collaborator data from
`mtz.hpp`, modelled by the fields the reader uses). -/
structure MtzColumn where
  label : String
  idx : ℕ
  dataset_id : ℕ
deriving DecidableEq, Repr

/-- The members of the external `Mtz` class used by the readers: batch
records, columns, the flat data array, the space group pointer, the cell
from batch headers, and per-dataset wavelengths. -/
structure Mtz where
  batches : List Unit
  columns : List MtzColumn
  data : List Fq
  spacegroup : Option SpaceGroup
  average_batch_cell : UnitCell Fq
  dataset_wavelength : ℕ → Fq

/-- `Mtz::column_with_label`: first column with the given label, if any. -/
def Mtz.column_with_label (m : Mtz) (lbl : String) : Option MtzColumn :=
  m.columns.find? (fun c => c.label == lbl)

/-- `Mtz::get_column_with_label`: as above but throwing when absent. -/
def Mtz.get_column_with_label (m : Mtz) (lbl : String) :
    Except ReadError MtzColumn :=
  match m.column_with_label lbl with
  | none => .error (.failMsg ("Column not found: " ++ lbl))
  | some c => .ok c

/-- Element `i` of the flat data array (out-of-range access is undefined
behaviour in C++; the model yields NaN, which no claim depends on). -/
def mtzDatum (m : Mtz) (i : ℕ) : Fq := m.data.getD i .nan

/-- `Mtz::get_hkl(i)`: the first three entries of the row cast to int. -/
def Mtz.get_hkl (m : Mtz) (i : ℕ) : Miller :=
  ⟨(mtzDatum m i).toInt, (mtzDatum m (i + 1)).toInt, (mtzDatum m (i + 2)).toInt⟩

/-- The observation built by one iteration of the unmerged-MTZ loop:
the sign tag comes from the parity of the packed M/ISYM code in the 4th
data slot, `(int)data[i+3] % 2 == 0 ? -1 : 1`. -/
def mkMtzRefl (m : Mtz) (value_idx sigma_idx i : ℕ) : Refl Fq :=
  { hkl := m.get_hkl i,
    isign := if (mtzDatum m (i + 3)).toInt % 2 = 0 then -1 else 1,
    value := mtzDatum m (i + value_idx),
    sigma := mtzDatum m (i + sigma_idx) }

/-- The row positions of the MTZ loop
`for (i = 0; i < data.size(); i += columns.size())`. -/
def mtzRowStarts (m : Mtz) : List ℕ := rowStarts m.data.length m.columns.length

/-- The ingestion loop of `read_unmerged_intensities_from_mtz` (the data
list as built just before `switch_to_asu_indices` runs). -/
def mtzUnmergedRefls (m : Mtz) (value_idx sigma_idx : ℕ) : List (Refl Fq) :=
  (mtzRowStarts m).foldl
    (fun d i => addIfValid d (mkMtzRefl m value_idx sigma_idx i)) []

/-- `read_unmerged_intensities_from_mtz`: requires batch records, requires
M/ISYM as the 4th column (index 3), resolves the I and SIGI columns,
requires a known space group, ingests with the parity-derived signs, and
finally reduces the indices to the asymmetric unit. -/
def read_unmerged_intensities_from_mtz (m : Mtz) :
    Except ReadError (Intensities Fq) :=
  if m.batches = [] then .error (.failMsg "expected unmerged file") else
  match m.column_with_label "M/ISYM" with
  | none => .error (.failMsg "unmerged file should have M/ISYM as 4th column")
  | some isym_col =>
    if isym_col.idx ≠ 3 then
      .error (.failMsg "unmerged file should have M/ISYM as 4th column")
    else do
      let col ← m.get_column_with_label "I"
      let sigcol ← m.get_column_with_label "SIGI"
      match m.spacegroup with
      | none => .error (.failMsg "unknown space group")
      | some sg =>
        let i0 : Intensities Fq :=
          { data := mtzUnmergedRefls m col.idx sigcol.idx,
            spacegroup := some sg,
            unit_cell := m.average_batch_cell,
            wavelength := m.dataset_wavelength col.dataset_id }
        i0.switch_to_asu_indices false

/-! ### The XDS ASCII reader -/

/-- One row of an XDS ASCII file (collaborator data from `xds_ascii.hpp`,
modelled by the fields the reader uses). -/
structure XdsRefl where
  hkl : Miller
  iobs : Fq
  sigma : Fq

/-- The members of the external `XdsAscii` class used by the reader. -/
structure XdsAscii where
  unit_cell : UnitCell Fq
  spacegroup_number : ℕ
  wavelength : Fq
  data : List XdsRefl

/-- Modelled from the spec: `find_spacegroup_by_number`, the space-group
lookup table (`symmetry.hpp` is outside the visible core).  Known
identifiers (the 230 standard space-group numbers) resolve to a table
entry; unknown codes do not resolve.  The oracle capabilities of a
resolved entry belong to the external symmetry library and are not
constrained by any claim settled against this lookup. -/
def find_spacegroup_by_number (n : ℕ) : Option SpaceGroup :=
  if 1 ≤ n ∧ n ≤ 230 then
    some { number := n, asu_is_in := fun _ => true,
           asu_to := fun hkl => (hkl, 1), absent := fun _ => false }
  else none

/-- `read_unmerged_intensities_from_xds`: copies the cell, looks up the
space group by number (with no null check), filters the rows through
`add_if_valid`, then calls `switch_to_asu_indices` (which dereferences the
possibly-null space group). -/
def read_unmerged_intensities_from_xds (xds : XdsAscii) :
    Except ReadError (Intensities Fq) :=
  let i0 : Intensities Fq :=
    { data := xds.data.foldl
        (fun d x => addIfValid d ⟨x.hkl, 0, x.iobs, x.sigma⟩) [],
      spacegroup := find_spacegroup_by_number xds.spacegroup_number,
      unit_cell := xds.unit_cell,
      wavelength := xds.wavelength }
  i0.switch_to_asu_indices false

/-! ### Facts about the key order -/

theorem keyLt_irrefl (a : ℤ × ℤ × ℤ × ℤ) : keyLt a a = false := by
  obtain ⟨a1, a2, a3, a4⟩ := a
  simp [keyLt]

theorem keyLt_of_lt_of_not_lt {a b c : ℤ × ℤ × ℤ × ℤ}
    (hab : keyLt a b = true) (hcb : keyLt c b = false) : keyLt a c = true := by
  obtain ⟨a1, a2, a3, a4⟩ := a
  obtain ⟨b1, b2, b3, b4⟩ := b
  obtain ⟨c1, c2, c3, c4⟩ := c
  simp only [keyLt, decide_eq_true_eq, decide_eq_false_iff_not] at *
  omega

theorem keyLt_asymm {a b : ℤ × ℤ × ℤ × ℤ}
    (hab : keyLt a b = true) : keyLt b a = false := by
  obtain ⟨a1, a2, a3, a4⟩ := a
  obtain ⟨b1, b2, b3, b4⟩ := b
  simp only [keyLt, decide_eq_true_eq, decide_eq_false_iff_not] at *
  omega

theorem keyLe_antisymm {a b : ℤ × ℤ × ℤ × ℤ}
    (hab : keyLt a b = false) (hba : keyLt b a = false) : a = b := by
  obtain ⟨a1, a2, a3, a4⟩ := a
  obtain ⟨b1, b2, b3, b4⟩ := b
  simp only [keyLt, decide_eq_false_iff_not, Prod.mk.injEq] at *
  omega

theorem keyLe_trans {a b c : ℤ × ℤ × ℤ × ℤ}
    (hab : keyLt b a = false) (hbc : keyLt c b = false) : keyLt c a = false := by
  obtain ⟨a1, a2, a3, a4⟩ := a
  obtain ⟨b1, b2, b3, b4⟩ := b
  obtain ⟨c1, c2, c3, c4⟩ := c
  simp only [keyLt, decide_eq_false_iff_not] at *
  omega

section ReflOrder

variable {α : Type}

theorem Refl.key_eq_iff (a b : Refl α) :
    a.key = b.key ↔ a.hkl = b.hkl ∧ a.isign = b.isign := by
  obtain ⟨⟨ah, ak, al⟩, ai, av, as⟩ := a
  obtain ⟨⟨bh, bk, bl⟩, bi, bv, bs⟩ := b
  simp [Refl.key, Miller.mk.injEq, Prod.ext_iff, and_assoc]

theorem sameKey_true_iff (a b : Refl α) :
    Refl.sameKey a b = true ↔ a.key = b.key := by
  simp [Refl.sameKey, Refl.key_eq_iff]

theorem sameKey_congr {a b : Refl α} (h : a.key = b.key) :
    Refl.sameKey a = Refl.sameKey b := by
  obtain ⟨h1, h2⟩ := (Refl.key_eq_iff a b).mp h
  funext x
  simp [Refl.sameKey, h1, h2]

/-- The comparator handed to the sort is transitive. -/
theorem reflLe_trans (a b c : Refl α) :
    Refl.le a b → Refl.le b c → Refl.le a c := by
  simp only [Refl.le, Refl.lt, Bool.not_eq_true', Bool.not_eq_eq_eq_not,
    Bool.not_true]
  exact fun h1 h2 => keyLe_trans h1 h2

/-- The comparator handed to the sort is total. -/
theorem reflLe_total (a b : Refl α) : Refl.le a b || Refl.le b a := by
  simp only [Refl.le, Refl.lt, Bool.or_eq_true, Bool.not_eq_true']
  by_cases h : keyLt a.key b.key = true
  · exact Or.inl (keyLt_asymm h)
  · exact Or.inr (Bool.not_eq_true _ ▸ h)

theorem reflLt_of_le_of_ne {a b : Refl α}
    (hle : Refl.le a b = true) (hne : Refl.sameKey a b = false) :
    Refl.lt a b = true := by
  simp only [Refl.le, Refl.lt, Bool.not_eq_true'] at hle ⊢
  rcases h : keyLt a.key b.key with _ | _
  · exfalso
    have : a.key = b.key := keyLe_antisymm h hle
    rw [← sameKey_true_iff] at this
    simp [hne] at this
  · rfl

/-- In a list sorted at or above `head`'s key, the first run of `head`'s
key is all of it: `takeWhile` and `dropWhile` coincide with the
corresponding filters. -/
theorem takeWhile_eq_filter_of_sorted {head : Refl α} :
    ∀ {l : List (Refl α)},
    (∀ x ∈ l, Refl.le head x = true) → l.Pairwise (Refl.le · ·) →
    l.takeWhile (Refl.sameKey head) = l.filter (Refl.sameKey head) ∧
      l.dropWhile (Refl.sameKey head) =
        l.filter (fun x => !(Refl.sameKey head x)) := by
  intro l
  induction l with
  | nil => simp
  | cons a l' ih =>
    intro hub hpw
    rw [List.pairwise_cons] at hpw
    by_cases h : Refl.sameKey head a = true
    · have hrest := ih (fun x hx => hub x (List.mem_cons_of_mem _ hx)) hpw.2
      rw [List.takeWhile_cons_of_pos h, List.dropWhile_cons_of_pos h,
        List.filter_cons_of_pos h, List.filter_cons_of_neg (by simp [h])]
      exact ⟨by rw [hrest.1], hrest.2⟩
    · have hlt : Refl.lt head a = true :=
        reflLt_of_le_of_ne (hub a (List.mem_cons_self a l'))
          (Bool.not_eq_true _ ▸ h)
      have hnone : ∀ x ∈ l', Refl.sameKey head x = false := by
        intro x hx
        have hax : Refl.le a x = true := hpw.1 x hx
        have : keyLt head.key x.key = true :=
          keyLt_of_lt_of_not_lt hlt (by
            have := hax
            simp only [Refl.le, Refl.lt, Bool.not_eq_true'] at this
            exact this)
        rcases hsk : Refl.sameKey head x with _ | _
        · rfl
        · exfalso
          have hk := (sameKey_true_iff head x).mp hsk
          rw [hk] at this
          simp [keyLt_irrefl] at this
      rw [List.takeWhile_cons_of_neg (by simp [h]),
        List.dropWhile_cons_of_neg (by simp [h]),
        List.filter_cons_of_neg (by simp [h]),
        List.filter_cons_of_pos (by simp [h])]
      constructor
      · rw [List.filter_eq_nil_iff.mpr]
        intro x hx
        simp [hnone x hx]
      · rw [List.filter_eq_self.mpr]
        intro x hx
        simp [hnone x hx]

end ReflOrder

/-! ### The run-splitting characterization of the merge scan -/

section ScanLemmas

variable {α : Type} [DivisionRing α] (sqrtF : α → α)

/-- The accumulated weight `Σ 1/σ²` of a run. -/
def sumW (l : List (Refl α)) : α := (l.map wgt).sum

/-- The accumulated weighted value `Σ (1/σ²)·v` of a run. -/
def sumWV (l : List (Refl α)) : α := (l.map fun r => wgt r * r.value).sum

@[simp] theorem sumW_nil : sumW ([] : List (Refl α)) = 0 := rfl

@[simp] theorem sumW_cons (r : Refl α) (l : List (Refl α)) :
    sumW (r :: l) = wgt r + sumW l := by
  simp [sumW]

@[simp] theorem sumWV_nil : sumWV ([] : List (Refl α)) = 0 := rfl

@[simp] theorem sumWV_cons (r : Refl α) (l : List (Refl α)) :
    sumWV (r :: l) = wgt r * r.value + sumWV l := by
  simp [sumWV]

/-- Splitting off the first run: the scan emits one observation for the
longest prefix sharing the head's key and then restarts on the rest. -/
theorem scanRuns_split (t : List (Refl α)) :
    ∀ (head : Refl α) (swi sw : α),
    scanRuns sqrtF head swi sw t =
      emitRun sqrtF head
        (swi + sumWV (t.takeWhile (Refl.sameKey head)))
        (sw + sumW (t.takeWhile (Refl.sameKey head)))
      :: mergeScan sqrtF (t.dropWhile (Refl.sameKey head)) := by
  induction t with
  | nil => intro head swi sw; simp [scanRuns, mergeScan]
  | cons r rest ih =>
    intro head swi sw
    by_cases h : Refl.sameKey head r = true
    · rw [scanRuns, if_pos h, ih, List.takeWhile_cons_of_pos h,
        List.dropWhile_cons_of_pos h]
      simp [add_assoc]
    · rw [scanRuns, if_neg h,
        List.takeWhile_cons_of_neg (by simp [h]),
        List.dropWhile_cons_of_neg (by simp [h])]
      simp [mergeScan]

/-- On a sorted nonempty list the scan emits, for the head's key, the
inverse-variance-weighted combination of every observation of that key,
and recurses on the observations of the other keys. -/
theorem mergeScan_cons_sorted {head : Refl α} {t : List (Refl α)}
    (hpw : (head :: t).Pairwise (Refl.le · ·)) :
    mergeScan sqrtF (head :: t) =
      emitRun sqrtF head
        (sumWV ((head :: t).filter (Refl.sameKey head)))
        (sumW ((head :: t).filter (Refl.sameKey head)))
      :: mergeScan sqrtF (t.filter (fun x => !(Refl.sameKey head x))) := by
  rw [List.pairwise_cons] at hpw
  have hself : Refl.sameKey head head = true := by
    simp [sameKey_true_iff]
  have hrefl_le : ∀ x ∈ t, Refl.le head x = true := fun x hx => hpw.1 x hx
  obtain ⟨htw, hdw⟩ := takeWhile_eq_filter_of_sorted hrefl_le hpw.2
  rw [mergeScan, scanRuns_split, htw, hdw,
    List.filter_cons_of_pos hself]
  simp

end ScanLemmas

/-! ### Main properties of the merge scan -/

section ScanMain

variable {α : Type} [DivisionRing α] (sqrtF : α → α)

@[simp] theorem emitRun_key (head : Refl α) (swi sw : α) :
    (emitRun sqrtF head swi sw).key = head.key := rfl

theorem emitRun_congr {h₁ h₂ : Refl α} (hk : h₁.key = h₂.key) (swi sw : α) :
    emitRun sqrtF h₁ swi sw = emitRun sqrtF h₂ swi sw := by
  obtain ⟨hh, hi⟩ := (Refl.key_eq_iff h₁ h₂).mp hk
  simp [emitRun, hh, hi]

theorem sumW_perm {l₁ l₂ : List (Refl α)} (h : l₁.Perm l₂) :
    sumW l₁ = sumW l₂ := (h.map wgt).sum_eq

theorem sumWV_perm {l₁ l₂ : List (Refl α)} (h : l₁.Perm l₂) :
    sumWV l₁ = sumWV l₂ := (h.map _).sum_eq

/-- Every key in the scan output comes from an input observation. -/
theorem key_mem_scanRuns :
    ∀ (t : List (Refl α)) (head : Refl α) (swi sw : α) (y : Refl α),
    y ∈ scanRuns sqrtF head swi sw t →
    y.key = head.key ∨ ∃ x ∈ t, x.key = y.key := by
  intro t
  induction t with
  | nil =>
    intro head swi sw y hy
    rw [scanRuns, List.mem_singleton] at hy
    exact Or.inl (hy ▸ rfl)
  | cons r rest ih =>
    intro head swi sw y hy
    rw [scanRuns] at hy
    by_cases h : Refl.sameKey head r = true
    · rw [if_pos h] at hy
      rcases ih head _ _ y hy with h1 | ⟨x, hx, hk⟩
      · exact Or.inl h1
      · exact Or.inr ⟨x, List.mem_cons_of_mem _ hx, hk⟩
    · rw [if_neg h] at hy
      rcases List.mem_cons.mp hy with h1 | h1
      · exact Or.inl (h1 ▸ rfl)
      · rcases ih r _ _ y h1 with h2 | ⟨x, hx, hk⟩
        · exact Or.inr ⟨r, List.mem_cons_self r rest, h2.symm⟩
        · exact Or.inr ⟨x, List.mem_cons_of_mem _ hx, hk⟩

theorem key_mem_mergeScan {l : List (Refl α)} {y : Refl α}
    (hy : y ∈ mergeScan sqrtF l) : ∃ x ∈ l, x.key = y.key := by
  match l with
  | [] => simp [mergeScan] at hy
  | h :: t =>
    rw [mergeScan] at hy
    rcases key_mem_scanRuns sqrtF t h _ _ y hy with h1 | ⟨x, hx, hk⟩
    · exact ⟨h, List.mem_cons_self h t, h1.symm⟩
    · exact ⟨x, List.mem_cons_of_mem _ hx, hk⟩

/-- On a sorted input the scan output is strictly increasing in the key
(in particular all its keys are pairwise distinct). -/
theorem mergeScan_pairwise_lt :
    ∀ (n : ℕ) (l : List (Refl α)), l.length ≤ n →
    l.Pairwise (Refl.le · ·) →
    (mergeScan sqrtF l).Pairwise (fun x y => Refl.lt x y = true) := by
  intro n
  induction n with
  | zero =>
    intro l hlen _
    rw [List.length_eq_zero.mp (Nat.le_zero.mp hlen)]
    simp [mergeScan]
  | succ n ih =>
    intro l hlen hpw
    match l with
    | [] => simp [mergeScan]
    | h :: t =>
      rw [mergeScan_cons_sorted sqrtF hpw]
      rw [List.pairwise_cons] at hpw ⊢
      constructor
      · intro y hy
        obtain ⟨x, hx, hk⟩ := key_mem_mergeScan sqrtF hy
        rw [List.mem_filter] at hx
        have hle : Refl.le h x = true := hpw.1 x hx.1
        have hne : Refl.sameKey h x = false := by
          rcases hsk : Refl.sameKey h x with _ | _
          · rfl
          · exfalso; rw [hsk] at hx; simp at hx
        have hlt : Refl.lt h x = true := reflLt_of_le_of_ne hle hne
        show Refl.lt (emitRun sqrtF h _ _) y = true
        rw [Refl.lt, emitRun_key, ← hk]
        exact hlt
      · exact ih (t.filter _)
          (Nat.le_trans (List.length_filter_le _ t)
            (Nat.le_of_succ_le_succ hlen))
          (hpw.2.sublist (List.filter_sublist t))

/-- Determinism of the scan: two sorted arrangements of the same multiset
of observations produce the same output. -/
theorem mergeScan_perm_eq :
    ∀ (n : ℕ) (l₁ l₂ : List (Refl α)), l₁.length ≤ n → l₁.Perm l₂ →
    l₁.Pairwise (Refl.le · ·) → l₂.Pairwise (Refl.le · ·) →
    mergeScan sqrtF l₁ = mergeScan sqrtF l₂ := by
  intro n
  induction n with
  | zero =>
    intro l₁ l₂ hlen hp _ _
    have h1 : l₁ = [] := List.length_eq_zero.mp (Nat.le_zero.mp hlen)
    have h2 : l₂ = [] := by
      have := hp.length_eq
      rw [h1] at this
      exact List.length_eq_zero.mp this.symm
    rw [h1, h2]
  | succ n ih =>
    intro l₁ l₂ hlen hp hpw₁ hpw₂
    match l₁, l₂ with
    | [], l₂ =>
      have : l₂ = [] := by
        have := hp.length_eq
        simpa using this.symm
      rw [this]
    | h₁ :: t₁, [] => exact absurd hp.length_eq (by simp)
    | h₁ :: t₁, h₂ :: t₂ =>
      have hkey : h₁.key = h₂.key := by
        have hm₁ : h₁ ∈ h₂ :: t₂ := hp.mem_iff.mp (List.mem_cons_self h₁ t₁)
        have hm₂ : h₂ ∈ h₁ :: t₁ := hp.mem_iff.mpr (List.mem_cons_self h₂ t₂)
        rcases List.mem_cons.mp hm₁ with he₁ | hm₁'
        · rw [he₁]
        · rcases List.mem_cons.mp hm₂ with he₂ | hm₂'
          · rw [he₂]
          · have hle₁ : Refl.le h₁ h₂ = true :=
              (List.pairwise_cons.mp hpw₁).1 h₂ hm₂'
            have hle₂ : Refl.le h₂ h₁ = true :=
              (List.pairwise_cons.mp hpw₂).1 h₁ hm₁'
            simp only [Refl.le, Refl.lt, Bool.not_eq_eq_eq_not,
              Bool.not_true] at hle₁ hle₂
            exact keyLe_antisymm hle₂ hle₁
      have hsk : Refl.sameKey h₁ = Refl.sameKey h₂ := sameKey_congr hkey
      rw [mergeScan_cons_sorted sqrtF hpw₁, mergeScan_cons_sorted sqrtF hpw₂]
      have hfiltp : ((h₁ :: t₁).filter (Refl.sameKey h₁)).Perm
          ((h₂ :: t₂).filter (Refl.sameKey h₂)) := by
        rw [hsk]; exact hp.filter _
      have htail₁ : t₁.filter (fun x => !(Refl.sameKey h₁ x)) =
          (h₁ :: t₁).filter (fun x => !(Refl.sameKey h₁ x)) := by
        rw [List.filter_cons_of_neg]
        simp [sameKey_true_iff]
      have htail₂ : t₂.filter (fun x => !(Refl.sameKey h₂ x)) =
          (h₂ :: t₂).filter (fun x => !(Refl.sameKey h₂ x)) := by
        rw [List.filter_cons_of_neg]
        simp [sameKey_true_iff]
      have htailp : (t₁.filter (fun x => !(Refl.sameKey h₁ x))).Perm
          (t₂.filter (fun x => !(Refl.sameKey h₂ x))) := by
        rw [htail₁, htail₂, hsk]
        exact hp.filter _
      congr 1
      · rw [emitRun_congr sqrtF hkey, sumWV_perm hfiltp, sumW_perm hfiltp]
      · exact ih _ _
          (Nat.le_trans (List.length_filter_le _ t₁)
            (Nat.le_of_succ_le_succ hlen))
          htailp
          ((List.pairwise_cons.mp hpw₁).2.sublist (List.filter_sublist t₁))
          ((List.pairwise_cons.mp hpw₂).2.sublist (List.filter_sublist t₂))

/-- A one-key input collapses to the single weighted-mean observation. -/
theorem mergeScan_all_same {head : Refl α} {t : List (Refl α)}
    (hall : ∀ x ∈ t, Refl.sameKey head x = true) :
    mergeScan sqrtF (head :: t) =
      [emitRun sqrtF head (sumWV (head :: t)) (sumW (head :: t))] := by
  rw [mergeScan, scanRuns_split,
    List.takeWhile_eq_self_iff.mpr hall,
    List.dropWhile_eq_nil_iff.mpr hall]
  rw [mergeScan]
  simp [add_comm]

end ScanMain

/-! ### Merge over the reals -/

theorem reflLe_of_lt {α : Type} {a b : Refl α} (h : Refl.lt a b = true) :
    Refl.le a b = true := by
  simp only [Refl.le, Refl.lt] at *
  simp [keyLt_asymm h]

theorem pairwise_le_of_lt {α : Type} {l : List (Refl α)}
    (h : l.Pairwise (fun x y => Refl.lt x y = true)) :
    l.Pairwise (Refl.le · ·) :=
  h.imp reflLe_of_lt

theorem key_ne_of_lt {α : Type} {a b : Refl α} (h : Refl.lt a b = true) :
    a.key ≠ b.key := by
  intro heq
  rw [Refl.lt, heq] at h
  simp [keyLt_irrefl] at h

theorem not_sameKey_of_lt {α : Type} {a b : Refl α} (h : Refl.lt a b = true) :
    Refl.sameKey a b = false := by
  rcases hs : Refl.sameKey a b with _ | _
  · rfl
  · exact absurd ((sameKey_true_iff a b).mp hs) (key_ne_of_lt h)

/-- A singleton run re-emits its observation unchanged: the weighted mean
of one value is that value, and `1/sqrt(1/σ²) = σ` for `σ > 0`. -/
theorem emitRun_single (r : Refl ℝ) (hσ : 0 < r.sigma) :
    emitRun Real.sqrt r (sumWV [r]) (sumW [r]) = r := by
  have hs2 : r.sigma * r.sigma ≠ 0 := mul_ne_zero (ne_of_gt hσ) (ne_of_gt hσ)
  have hw : wgt r ≠ 0 := by
    rw [wgt]
    exact one_div_ne_zero hs2
  have h1 : sumWV [r] / sumW [r] = r.value := by
    rw [sumWV, sumW]
    simp only [List.map_cons, List.map_nil, List.sum_cons, List.sum_nil,
      add_zero]
    exact mul_div_cancel_left₀ _ hw
  have h2 : 1 / Real.sqrt (sumW [r]) = r.sigma := by
    rw [sumW]
    simp only [List.map_cons, List.map_nil, List.sum_cons, List.sum_nil,
      add_zero, wgt]
    rw [one_div, one_div, Real.sqrt_inv, inv_inv, Real.sqrt_mul_self hσ.le]
  rw [emitRun, h1, h2]

/-- The scan leaves a strictly sorted list of positive-sigma observations
unchanged. -/
theorem mergeScan_strictSorted :
    ∀ (l : List (Refl ℝ)),
    l.Pairwise (fun x y => Refl.lt x y = true) →
    (∀ r ∈ l, 0 < r.sigma) →
    mergeScan Real.sqrt l = l := by
  intro l
  induction l with
  | nil => intro _ _; rfl
  | cons h t ih =>
    intro hpw hsig
    rw [mergeScan_cons_sorted Real.sqrt (pairwise_le_of_lt hpw)]
    rw [List.pairwise_cons] at hpw
    have hnone : ∀ x ∈ t, Refl.sameKey h x = false := fun x hx =>
      not_sameKey_of_lt (hpw.1 x hx)
    have hfilt1 : (h :: t).filter (Refl.sameKey h) = [h] := by
      rw [List.filter_cons_of_pos (by simp [sameKey_true_iff])]
      rw [List.filter_eq_nil_iff.mpr (by intro x hx; simp [hnone x hx])]
    have hfilt2 : t.filter (fun x => !(Refl.sameKey h x)) = t :=
      List.filter_eq_self.mpr (by intro x hx; simp [hnone x hx])
    rw [hfilt1, hfilt2,
      ih hpw.2 (fun r hr => hsig r (List.mem_cons_of_mem _ hr)),
      emitRun_single h (hsig h (List.mem_cons_self h t))]

/-- A nonempty input whose observations all share one `(index, sign)` key
merges to the single inverse-variance-weighted observation of that key. -/
theorem emitRun_eq_mk {α : Type} [DivisionRing α] (sqrtF : α → α)
    (head : Refl α) (swi sw : α) :
    emitRun sqrtF head swi sw =
      ⟨head.hkl, head.isign, swi / sw, 1 / sqrtF sw⟩ := rfl

theorem mergeData_one_run (l : List (Refl ℝ)) (H : Miller) (s : ℤ)
    (hne : l ≠ [])
    (hall : ∀ x ∈ l, x.hkl = H ∧ x.isign = s) :
    mergeData Real.sqrt true l =
      [⟨H, s, sumWV l / sumW l, 1 / Real.sqrt (sumW l)⟩] := by
  rw [mergeData, if_neg (by simp [hne]), if_pos rfl]
  have hperm : (sortData l).Perm l := List.mergeSort_perm l Refl.le
  match hs : sortData l with
  | [] =>
    exfalso
    rw [hs] at hperm
    exact hne hperm.nil_eq.symm
  | h :: t =>
    rw [hs] at hperm
    have hall' : ∀ x ∈ h :: t, x.hkl = H ∧ x.isign = s := fun x hx =>
      hall x (hperm.mem_iff.mp hx)
    have hh := hall' h (List.mem_cons_self h t)
    have hsame : ∀ x ∈ t, Refl.sameKey h x = true := by
      intro x hx
      have hx' := hall' x (List.mem_cons_of_mem _ hx)
      rw [sameKey_true_iff, Refl.key_eq_iff]
      rw [hh.1, hh.2, hx'.1, hx'.2]
      exact ⟨rfl, rfl⟩
    rw [mergeScan_all_same Real.sqrt hsame,
      sumWV_perm hperm, sumW_perm hperm,
      emitRun_eq_mk, hh.1, hh.2]

/-! ### Claim theorems: the Merger -/

/-- Claim C1: a run of observations sharing one `(index, sign)` key merges
to a single observation whose value is the inverse-variance-weighted mean
`Σ wᵢ·vᵢ / Σ wᵢ` with `wᵢ = 1/σᵢ²` (`sumWV`/`sumW`) and whose sigma is the
propagated `1/sqrt(Σ wᵢ)`; the concrete instance of the claim is the
accompanying witness. -/
theorem weighted_mean_merge (i : Intensities ℝ) (H : Miller) (s : ℤ)
    (hne : i.data ≠ [])
    (hall : ∀ x ∈ i.data, x.hkl = H ∧ x.isign = s) :
    (i.merge_in_place Real.sqrt true).data =
      [⟨H, s, sumWV i.data / sumW i.data, 1 / Real.sqrt (sumW i.data)⟩] :=
  mergeData_one_run i.data H s hne hall

/-- Witness for C1: merging `(1,2,3,None,10.0,2.0)` and
`(1,2,3,None,14.0,2.0)` yields `(1,2,3,None)` with value `12` and sigma
`2/√2`. -/
theorem weighted_mean_merge_witness :
    (Intensities.merge_in_place Real.sqrt true
      { data := [⟨⟨1, 2, 3⟩, 0, 10, 2⟩, ⟨⟨1, 2, 3⟩, 0, 14, 2⟩],
        spacegroup := none, unit_cell := ⟨fun _ => 0⟩, wavelength := 0 }).data =
      [⟨⟨1, 2, 3⟩, 0, 12, 2 / Real.sqrt 2⟩] := by
  rw [weighted_mean_merge _ ⟨1, 2, 3⟩ 0 (by simp)
    (by intro x hx
        rcases List.mem_cons.mp hx with h | h
        · rw [h]; exact ⟨rfl, rfl⟩
        · rw [List.mem_singleton] at h
          rw [h]; exact ⟨rfl, rfl⟩)]
  have hsum : sumW [(⟨⟨1, 2, 3⟩, 0, 10, 2⟩ : Refl ℝ), ⟨⟨1, 2, 3⟩, 0, 14, 2⟩] =
      1 / 2 := by
    simp only [sumW, wgt, List.map_cons, List.map_nil, List.sum_cons,
      List.sum_nil]
    norm_num
  have hsumv : sumWV [(⟨⟨1, 2, 3⟩, 0, 10, 2⟩ : Refl ℝ), ⟨⟨1, 2, 3⟩, 0, 14, 2⟩] =
      6 := by
    simp only [sumWV, wgt, List.map_cons, List.map_nil, List.sum_cons,
      List.sum_nil]
    norm_num
  rw [hsum, hsumv]
  have hv : (6 : ℝ) / (1 / 2) = 12 := by norm_num
  have hσ : 1 / Real.sqrt (1 / 2) = 2 / Real.sqrt 2 := by
    rw [show (1 / 2 : ℝ) = 2⁻¹ by norm_num, Real.sqrt_inv, one_div, inv_inv,
      eq_comm, Real.div_sqrt]
  rw [hv, hσ]

/-- Claim C4: degenerate merges are the identity: an empty set is returned
unchanged; a single observation re-emerges with value and sigma unchanged
(its sign zeroed only by the deliberate sign-discard mode); an
already-merged set (strictly sorted, hence one observation per key) merges
to itself when the sign-discard step does not alter it. -/
theorem merge_degenerate_identity (b : Bool) (i : Intensities ℝ) :
    (i.data = [] → i.merge_in_place Real.sqrt b = i) ∧
    (∀ r : Refl ℝ, i.data = [r] → 0 < r.sigma →
      (i.merge_in_place Real.sqrt b).data =
        [{ r with isign := if b then r.isign else 0 }]) ∧
    (i.data.Pairwise (fun x y => Refl.lt x y = true) →
      (∀ r ∈ i.data, 0 < r.sigma) →
      (b = true ∨ ∀ r ∈ i.data, r.isign = 0) →
      i.merge_in_place Real.sqrt b = i) := by
  refine ⟨?_, ?_, ?_⟩
  · intro h
    show ({ i with data := mergeData Real.sqrt b i.data } : Intensities ℝ) = i
    rw [mergeData, if_pos (by rw [h]; rfl)]
  · intro r hdata hσ
    show mergeData Real.sqrt b i.data = _
    rw [hdata, mergeData, if_neg (by simp)]
    have hstep : (if b then [r] else [r].map fun x => { x with isign := 0 }) =
        [{ r with isign := if b then r.isign else 0 }] := by
      cases b
      · simp
      · simp
    rw [hstep]
    rw [show sortData [({ r with isign := if b then r.isign else 0 } : Refl ℝ)] =
      [{ r with isign := if b then r.isign else 0 }] from
        List.mergeSort_singleton _]
    exact mergeScan_strictSorted _ (by simp)
      (by intro x hx; rw [List.mem_singleton] at hx; rw [hx]; exact hσ)
  · intro hpw hsig hb
    show ({ i with data := mergeData Real.sqrt b i.data } : Intensities ℝ) = i
    rw [mergeData]
    by_cases hd : i.data.isEmpty
    · rw [if_pos hd]
    · rw [if_neg hd]
      have hdisc : (if b then i.data
          else i.data.map fun x => { x with isign := 0 }) = i.data := by
        cases b with
        | false =>
          have hz : ∀ r ∈ i.data, r.isign = 0 := by
            rcases hb with hb | hb
            · exact absurd hb (by simp)
            · exact hb
          show i.data.map (fun x => { x with isign := 0 }) = i.data
          calc i.data.map (fun x => { x with isign := 0 })
              = i.data.map id := List.map_congr_left (fun x hx => by
                  obtain ⟨xh, xi, xv, xs⟩ := x
                  have hxz := hz _ hx
                  simp only [id_eq]
                  simp only at hxz
                  rw [hxz])
            _ = i.data := List.map_id _
        | true => rfl
      rw [hdisc,
        show sortData i.data = i.data from
          List.mergeSort_of_sorted (pairwise_le_of_lt hpw),
        mergeScan_strictSorted _ hpw hsig]

/-- Witness for C4: a one-observation set (sign already `None`) merges to
itself, value and sigma unchanged. -/
theorem merge_degenerate_identity_witness :
    Intensities.merge_in_place Real.sqrt false
      { data := [⟨⟨1, 2, 3⟩, 0, 5, 2⟩], spacegroup := none,
        unit_cell := ⟨fun _ => 0⟩, wavelength := 0 } =
      { data := [⟨⟨1, 2, 3⟩, 0, 5, 2⟩], spacegroup := none,
        unit_cell := ⟨fun _ => 0⟩, wavelength := 0 } :=
  (merge_degenerate_identity false
      { data := [⟨⟨1, 2, 3⟩, 0, 5, 2⟩], spacegroup := none,
        unit_cell := ⟨fun _ => 0⟩, wavelength := 0 }).2.2
    (by simp)
    (by intro r hr
        rw [List.mem_singleton] at hr
        rw [hr]
        norm_num)
    (Or.inr (by
      intro r hr
      rw [List.mem_singleton] at hr
      rw [hr]))

/-- Claim C5: after `merge_in_place` the observation sequence is strictly
increasing in the key `(h, k, l, isign)` — the lexicographic order in which
the integer encoding `-1 / 0 / 1` realizes `Minus < None < Plus` — and in
particular the `(index, sign)` keys are pairwise distinct. -/
theorem merge_output_sorted_unique (b : Bool) (i : Intensities ℝ) :
    ((i.merge_in_place Real.sqrt b).data).Pairwise
        (fun x y => Refl.lt x y = true) ∧
      ((i.merge_in_place Real.sqrt b).data).Pairwise
        (fun x y => x.key ≠ y.key) := by
  have h1 : ((i.merge_in_place Real.sqrt b).data).Pairwise
      (fun x y => Refl.lt x y = true) := by
    show (mergeData Real.sqrt b i.data).Pairwise _
    rw [mergeData]
    by_cases hd : i.data.isEmpty
    · rw [if_pos hd]
      rw [List.isEmpty_iff.mp hd]
      exact List.Pairwise.nil
    · rw [if_neg hd]
      exact mergeScan_pairwise_lt Real.sqrt (sortData _).length _ le_rfl
        (List.sorted_mergeSort (fun a b c => reflLe_trans a b c)
          reflLe_total _)
  exact ⟨h1, h1.imp key_ne_of_lt⟩

/-- Claim C9: the merged output depends only on the multiset of input
observations, not on their order: the Merger imposes its own total order
before combining, and runs of one key accumulate commutatively. -/
theorem merge_order_deterministic (b : Bool) (i₁ i₂ : Intensities ℝ)
    (hp : i₁.data.Perm i₂.data) :
    (i₁.merge_in_place Real.sqrt b).data =
      (i₂.merge_in_place Real.sqrt b).data := by
  show mergeData Real.sqrt b i₁.data = mergeData Real.sqrt b i₂.data
  rw [mergeData, mergeData]
  by_cases hd : i₁.data.isEmpty
  · have h1 : i₁.data = [] := List.isEmpty_iff.mp hd
    have h2 : i₂.data = [] := by
      have := hp.length_eq
      rw [h1] at this
      exact List.length_eq_zero.mp this.symm
    rw [h1, h2]
  · have hd2 : ¬ i₂.data.isEmpty := by
      intro h2
      apply hd
      rw [List.isEmpty_iff] at h2 ⊢
      have := hp.length_eq
      rw [h2] at this
      exact List.length_eq_zero.mp this
    rw [if_neg hd, if_neg hd2]
    have hperm' : (if b then i₁.data
          else i₁.data.map fun r => { r with isign := 0 }).Perm
        (if b then i₂.data
          else i₂.data.map fun r => { r with isign := 0 }) := by
      cases b with
      | false => exact hp.map _
      | true => exact hp
    exact mergeScan_perm_eq Real.sqrt (sortData _).length _ _ le_rfl
      ((List.mergeSort_perm _ _).trans
        (hperm'.trans (List.mergeSort_perm _ _).symm))
      (List.sorted_mergeSort (fun a b c => reflLe_trans a b c)
        reflLe_total _)
      (List.sorted_mergeSort (fun a b c => reflLe_trans a b c)
        reflLe_total _)

/-- Witness for C9: merging the same two observations given in either
order yields the same output sequence. -/
theorem merge_order_deterministic_witness :
    (Intensities.merge_in_place Real.sqrt true
      { data := [⟨⟨1, 2, 3⟩, 0, 10, 2⟩, ⟨⟨0, 0, 1⟩, 0, 7, 1⟩],
        spacegroup := none, unit_cell := ⟨fun _ => 0⟩, wavelength := 0 }).data =
    (Intensities.merge_in_place Real.sqrt true
      { data := [⟨⟨0, 0, 1⟩, 0, 7, 1⟩, ⟨⟨1, 2, 3⟩, 0, 10, 2⟩],
        spacegroup := none, unit_cell := ⟨fun _ => 0⟩, wavelength := 0 }).data :=
  merge_order_deterministic true _ _
    (List.Perm.swap (⟨⟨0, 0, 1⟩, 0, 7, 1⟩ : Refl ℝ) ⟨⟨1, 2, 3⟩, 0, 10, 2⟩ [])

/-! ### Claim theorems: validity filter and ingestion -/

/-- Folding `add_if_valid` over constructed rows appends exactly the rows
passing the acceptance test, in order. -/
theorem foldl_addIfValid {β : Type} (f : β → Refl Fq) :
    ∀ (xs : List β) (acc : List (Refl Fq)),
    xs.foldl (fun d j => addIfValid d (f j)) acc =
      acc ++ (xs.map f).filter acceptRefl := by
  intro xs
  induction xs with
  | nil => intro acc; simp
  | cons j rest ih =>
    intro acc
    rw [List.foldl_cons, ih, addIfValid]
    by_cases h : acceptRefl (f j)
    · rw [if_pos h, List.map_cons, List.filter_cons_of_pos h]
      simp
    · rw [if_neg h, List.map_cons,
        List.filter_cons_of_neg (by simpa using h)]

/-- Counterexample to C2 as stated: the filter tests `!isnan(value)`, not
finiteness, so an observation with value `+infinity` and sigma `1` is
accepted into the set although its value is not finite (so the claimed
`n - k` count with `k` counting non-finite values fails at this row). -/
theorem validity_filter_infinite_counterexample :
    acceptRefl ⟨⟨0, 0, 1⟩, 0, Fq.posInf, Fq.finite 1⟩ = true ∧
    Fq.isFiniteV Fq.posInf = false ∧
    addIfValid [] ⟨⟨0, 0, 1⟩, 0, Fq.posInf, Fq.finite 1⟩ =
      [⟨⟨0, 0, 1⟩, 0, Fq.posInf, Fq.finite 1⟩] := by
  refine ⟨by decide, rfl, ?_⟩
  rw [addIfValid, if_pos (by decide)]
  rfl

/-- Claim C2 (amended): the filter accepts an observation iff its value is
not NaN (±infinity is accepted) and its sigma compares strictly greater
than zero; a rejected observation is silently dropped — no error, the list
is simply left unchanged — and `read_data` over `n` rows adds exactly
`n - k` observations, where `k` counts the rows failing that test. -/
theorem validity_filter_amended (i : Intensities Fq) (p : DataProxy)
    (vi si : ℕ) :
    (∀ (d : List (Refl Fq)) (r : Refl Fq),
      addIfValid d r = if !r.value.isNaN && r.sigma.gtZero then d ++ [r]
        else d) ∧
    (i.read_data p vi si).data =
      i.data ++ (p.rows.map (readDataRefl p vi si)).filter acceptRefl ∧
    ((i.read_data p vi si).data).length =
      i.data.length + (p.rows.length -
        ((p.rows.map (readDataRefl p vi si)).filter
          (fun r => !(acceptRefl r))).length) := by
  have h2 : (i.read_data p vi si).data =
      i.data ++ (p.rows.map (readDataRefl p vi si)).filter acceptRefl :=
    foldl_addIfValid (readDataRefl p vi si) p.rows i.data
  refine ⟨fun d r => rfl, h2, ?_⟩
  rw [h2, List.length_append]
  congr 1
  have hsum : ∀ L : List (Refl Fq),
      (L.filter acceptRefl).length +
        (L.filter (fun r => !(acceptRefl r))).length = L.length := by
    intro L
    induction L with
    | nil => rfl
    | cons a t ih =>
      by_cases h : acceptRefl a
      · rw [List.filter_cons_of_pos h,
          List.filter_cons_of_neg (by simpa using h)]
        simp only [List.length_cons]
        omega
      · rw [List.filter_cons_of_neg h,
          List.filter_cons_of_pos (by simpa using h)]
        simp only [List.length_cons]
        omega
  have hL := hsum (p.rows.map (readDataRefl p vi si))
  rw [List.length_map] at hL
  omega

/-- Claim C7 (evaluating the code at the failing input): the XDS reader
performs no null check after the space-group lookup; with a space-group
number absent from the table it stores a null space group and then
`switch_to_asu_indices` dereferences it — the undefined-behaviour outcome,
not the clean `fail("unknown space group")` that `copy_metadata` (used by
the MTZ/mmCIF readers) raises. -/
theorem xds_unknown_spacegroup_nullderef :
    read_unmerged_intensities_from_xds
      { unit_cell := ⟨fun _ => Fq.finite 0⟩, spacegroup_number := 0,
        wavelength := Fq.finite 0, data := [] } =
      Except.error ReadError.nullDeref ∧
    (∀ msg : String,
      read_unmerged_intensities_from_xds
        { unit_cell := ⟨fun _ => Fq.finite 0⟩, spacegroup_number := 0,
          wavelength := Fq.finite 0, data := [] } ≠
        Except.error (ReadError.failMsg msg)) ∧
    (Intensities.copy_metadata
      { data := [], spacegroup := none, unit_cell := ⟨fun _ => Fq.finite 0⟩,
        wavelength := Fq.finite 0 } ⟨fun _ => Fq.finite 0⟩ none :
      Except ReadError (Intensities Fq)) =
      Except.error (ReadError.failMsg "unknown space group") := by
  refine ⟨rfl, ?_, rfl⟩
  intro msg h
  rw [show read_unmerged_intensities_from_xds
      { unit_cell := ⟨fun _ => Fq.finite 0⟩, spacegroup_number := 0,
        wavelength := Fq.finite 0, data := [] } =
      Except.error ReadError.nullDeref from rfl] at h
  exact ReadError.noConfusion (Except.error.inj h)

/-- Claim C8: after `switch_to_asu_indices`, every index lies in the
asymmetric unit (given the oracle contract that `to_asu` lands inside);
an index already inside is left completely untouched; an index outside is
replaced by the oracle's representative (value and sigma unchanged), and
in unmerged mode the sign is set from the parity of the returned
symmetry-operation identifier, even to `-1` (Minus), odd to `1` (Plus). -/
theorem asu_switch_closure {α : Type} (sg : SpaceGroup) (merged : Bool)
    (l : List (Refl α))
    (hasu : ∀ hkl : Miller, sg.asu_is_in (sg.asu_to hkl).1 = true) :
    (∀ r ∈ switchToAsuData sg merged l, sg.asu_is_in r.hkl = true) ∧
    (∀ r : Refl α, sg.asu_is_in r.hkl = true → asuMapRefl sg merged r = r) ∧
    (∀ r : Refl α, sg.asu_is_in r.hkl = false →
      (asuMapRefl sg merged r).hkl = (sg.asu_to r.hkl).1 ∧
      (asuMapRefl sg merged r).value = r.value ∧
      (asuMapRefl sg merged r).sigma = r.sigma ∧
      (merged = false →
        (asuMapRefl sg merged r).isign =
          (if (sg.asu_to r.hkl).2 % 2 = 0 then -1 else 1))) := by
  refine ⟨?_, ?_, ?_⟩
  · intro r hr
    rw [switchToAsuData] at hr
    obtain ⟨x, _, hx⟩ := List.mem_map.mp hr
    rw [← hx, asuMapRefl]
    by_cases h : sg.asu_is_in x.hkl = true
    · rw [if_pos h]; exact h
    · rw [if_neg h]; exact hasu x.hkl
  · intro r h
    rw [asuMapRefl, if_pos h]
  · intro r h
    rw [asuMapRefl, if_neg (by simp [h])]
    refine ⟨rfl, rfl, rfl, ?_⟩
    intro hm
    rw [hm]
    rfl

/-- Witness for C8 at a concrete oracle and an out-of-unit index. -/
theorem asu_switch_closure_witness :
    (⟨1, fun m => decide (m = ⟨0, 0, 0⟩), fun _ => (⟨0, 0, 0⟩, 3),
        fun _ => false⟩ : SpaceGroup).asu_is_in
      (asuMapRefl
        ⟨1, fun m => decide (m = ⟨0, 0, 0⟩), fun _ => (⟨0, 0, 0⟩, 3),
          fun _ => false⟩ false
        (⟨⟨-1, 2, 3⟩, 0, Fq.finite 1, Fq.finite 1⟩ : Refl Fq)).hkl = true :=
  (asu_switch_closure
      ⟨1, fun m => decide (m = ⟨0, 0, 0⟩), fun _ => (⟨0, 0, 0⟩, 3),
        fun _ => false⟩ false
      [⟨⟨-1, 2, 3⟩, 0, Fq.finite 1, Fq.finite 1⟩]
      (fun _ => rfl)).1 _
    (List.mem_singleton.mpr rfl)

/-- Claim C10: `remove_systematic_absences` on a set whose space group is
unset returns immediately, leaving the whole set (in particular the
observation sequence) unchanged, instead of raising an error. -/
theorem absences_null_spacegroup_noop {α : Type} (i : Intensities α)
    (h : i.spacegroup = none) :
    i.remove_systematic_absences = i := by
  rw [Intensities.remove_systematic_absences]
  split
  · rfl
  · rename_i sg hsg
    rw [h] at hsg
    exact Option.noConfusion hsg

/-- Witness for C10: a concrete one-observation set with a null space
group survives `remove_systematic_absences` untouched. -/
theorem absences_null_spacegroup_noop_witness :
    Intensities.remove_systematic_absences
      { data := [⟨⟨1, 2, 3⟩, 0, Fq.finite 5, Fq.finite 2⟩], spacegroup := none,
        unit_cell := ⟨fun _ => Fq.finite 0⟩, wavelength := Fq.finite 0 } =
      { data := [⟨⟨1, 2, 3⟩, 0, Fq.finite 5, Fq.finite 2⟩], spacegroup := none,
        unit_cell := ⟨fun _ => Fq.finite 0⟩, wavelength := Fq.finite 0 } :=
  absences_null_spacegroup_noop _ rfl

/-! ### Claim theorems: resolution range -/

theorem foldl_min_spec {γ : Type} [LinearOrder γ] :
    ∀ (l : List γ) (v : γ),
    l.foldl min v ∈ v :: l ∧ ∀ x ∈ v :: l, l.foldl min v ≤ x := by
  intro l
  induction l with
  | nil =>
    intro v
    refine ⟨List.mem_singleton.mpr rfl, ?_⟩
    intro x hx
    rw [List.mem_singleton] at hx
    rw [hx]
    exact le_refl v
  | cons a t ih =>
    intro v
    rw [List.foldl_cons]
    obtain ⟨hmem, hbd⟩ := ih (min v a)
    constructor
    · rcases List.mem_cons.mp hmem with h | h
      · rw [h]
        rcases min_choice v a with h2 | h2 <;> rw [h2]
        · exact List.mem_cons_self v (a :: t)
        · exact List.mem_cons_of_mem v (List.mem_cons_self a t)
      · exact List.mem_cons_of_mem v (List.mem_cons_of_mem a h)
    · intro x hx
      have hmin : t.foldl min (min v a) ≤ min v a :=
        hbd _ (List.mem_cons_self _ t)
      rcases List.mem_cons.mp hx with h | h
      · rw [h]
        exact hmin.trans (min_le_left v a)
      · rcases List.mem_cons.mp h with h2 | h2
        · rw [h2]
          exact hmin.trans (min_le_right v a)
        · exact hbd x (List.mem_cons_of_mem _ h2)

theorem foldl_max_spec {γ : Type} [LinearOrder γ] :
    ∀ (l : List γ) (v : γ),
    l.foldl max v ∈ v :: l ∧ ∀ x ∈ v :: l, x ≤ l.foldl max v := by
  intro l
  induction l with
  | nil =>
    intro v
    refine ⟨List.mem_singleton.mpr rfl, ?_⟩
    intro x hx
    rw [List.mem_singleton] at hx
    rw [hx]
    exact le_refl v
  | cons a t ih =>
    intro v
    rw [List.foldl_cons]
    obtain ⟨hmem, hbd⟩ := ih (max v a)
    constructor
    · rcases List.mem_cons.mp hmem with h | h
      · rw [h]
        rcases max_choice v a with h2 | h2 <;> rw [h2]
        · exact List.mem_cons_self v (a :: t)
        · exact List.mem_cons_of_mem v (List.mem_cons_self a t)
      · exact List.mem_cons_of_mem v (List.mem_cons_of_mem a h)
    · intro x hx
      have hmax : max v a ≤ t.foldl max (max v a) :=
        hbd _ (List.mem_cons_self _ t)
      rcases List.mem_cons.mp hx with h | h
      · rw [h]
        exact (le_max_left v a).trans hmax
      · rcases List.mem_cons.mp h with h2 | h2
        · rw [h2]
          exact (le_max_right v a).trans hmax
        · exact hbd x (List.mem_cons_of_mem _ h2)

/-- The pairwise extrema fold of `resolution_range` splits into the two
component folds. -/
theorem resFold_split (f : Refl ℝ → ℝ) :
    ∀ (l : List (Refl ℝ)) (t0 : WithTop ℝ) (m0 : ℝ),
    l.foldl (fun acc r =>
        (min acc.1 ((f r : ℝ) : WithTop ℝ), max acc.2 (f r))) (t0, m0) =
      (l.foldl (fun a r => min a ((f r : ℝ) : WithTop ℝ)) t0,
       l.foldl (fun a r => max a (f r)) m0) := by
  intro l
  induction l with
  | nil => intro t0 m0; rfl
  | cons a t ih =>
    intro t0 m0
    rw [List.foldl_cons, List.foldl_cons, List.foldl_cons, ih]

theorem foldl_min_coe :
    ∀ (L : List ℝ) (v : ℝ),
    L.foldl (fun a x => min a ((x : ℝ) : WithTop ℝ)) ((v : ℝ) : WithTop ℝ) =
      ((L.foldl min v : ℝ) : WithTop ℝ) := by
  intro L
  induction L with
  | nil => intro v; rfl
  | cons a t ih =>
    intro v
    rw [List.foldl_cons, List.foldl_cons, ← WithTop.coe_min, ih]

/-- Counterexample to C3 as stated: on observations with reciprocal
squared spacings `1` and `4` the code returns `(1/√1, 1/√4) = (1, 1/2)`
(low-resolution first), not the claimed `(1/√4, 1/√1) = (1/2, 1)`. -/
theorem resolution_range_order_counterexample :
    (Intensities.resolution_range Real.sqrt
      { data := [⟨⟨1, 0, 0⟩, 0, 1, 1⟩, ⟨⟨2, 0, 0⟩, 0, 1, 1⟩],
        spacegroup := none,
        unit_cell := ⟨fun hkl => (hkl.h : ℝ) * (hkl.h : ℝ)⟩,
        wavelength := 0 }) = (1, 1 / 2) ∧
    ((1 : ℝ), (1 / 2 : ℝ)) ≠ ((1 / 2 : ℝ), (1 : ℝ)) := by
  constructor
  · simp only [Intensities.resolution_range, List.foldl_cons, List.foldl_nil]
    have hc1 : (((1 : ℤ) : ℝ) * ((1 : ℤ) : ℝ)) = 1 := by norm_num
    have hc2 : (((2 : ℤ) : ℝ) * ((2 : ℤ) : ℝ)) = 4 := by norm_num
    rw [hc1, hc2]
    rw [min_eq_right (le_top : ((1 : ℝ) : WithTop ℝ) ≤ ⊤),
      ← WithTop.coe_min, min_eq_left (by norm_num : (1 : ℝ) ≤ 4),
      max_eq_right (by norm_num : (0 : ℝ) ≤ 1),
      max_eq_right (by norm_num : (1 : ℝ) ≤ 4),
      WithTop.untop'_coe, Real.sqrt_one,
      show (4 : ℝ) = 2 ^ 2 by norm_num,
      Real.sqrt_sq (by norm_num : (0 : ℝ) ≤ 2)]
    norm_num
  · intro h
    have := congrArg Prod.fst h
    norm_num at this

/-- Claim C3 (amended): on a nonempty set, `resolution_range` computes the
extrema of the reciprocal squared spacings (the maximum seeded at `0`) and
returns `(1/√min, 1/√max)` — the (low-resolution, high-resolution) pair in
that order, the reverse of the order the claim states; the empty set
remains a precondition violation. -/
theorem resolution_range_amended (i : Intensities ℝ) (hne : i.data ≠ []) :
    ∃ m M : ℝ,
      m ∈ i.data.map (fun r => i.unit_cell.calculate_1_d2 r.hkl) ∧
      (∀ x ∈ i.data.map (fun r => i.unit_cell.calculate_1_d2 r.hkl), m ≤ x) ∧
      M ∈ (0 : ℝ) :: i.data.map (fun r => i.unit_cell.calculate_1_d2 r.hkl) ∧
      (∀ x ∈ (0 : ℝ) :: i.data.map (fun r => i.unit_cell.calculate_1_d2 r.hkl),
        x ≤ M) ∧
      i.resolution_range Real.sqrt = (1 / Real.sqrt m, 1 / Real.sqrt M) := by
  match hdata : i.data with
  | [] => exact absurd hdata hne
  | r :: t =>
    set f : Refl ℝ → ℝ := fun x => i.unit_cell.calculate_1_d2 x.hkl with hf
    obtain ⟨hMmem, hMbd⟩ := foldl_max_spec ((r :: t).map f) 0
    obtain ⟨hmmem, hmbd⟩ := foldl_min_spec (t.map f) (f r)
    refine ⟨(t.map f).foldl min (f r), ((r :: t).map f).foldl max 0,
      ?_, ?_, ?_, ?_, ?_⟩
    · rw [List.map_cons]
      exact hmmem
    · rw [List.map_cons]
      exact hmbd
    · exact hMmem
    · exact hMbd
    · rw [Intensities.resolution_range]
      simp only [hdata]
      rw [resFold_split f (r :: t) ⊤ 0]
      have hminside : ((r :: t).foldl
          (fun a x => min a ((f x : ℝ) : WithTop ℝ)) ⊤) =
          (((t.map f).foldl min (f r) : ℝ) : WithTop ℝ) := by
        rw [List.foldl_cons,
          min_eq_right (le_top : ((f r : ℝ) : WithTop ℝ) ≤ ⊤)]
        rw [show (t.foldl (fun a x => min a ((f x : ℝ) : WithTop ℝ))
              ((f r : ℝ) : WithTop ℝ)) =
            ((t.map f).foldl (fun a x => min a ((x : ℝ) : WithTop ℝ))
              ((f r : ℝ) : WithTop ℝ)) from
          (List.foldl_map f (fun a x => min a ((x : ℝ) : WithTop ℝ)) t
            ((f r : ℝ) : WithTop ℝ)).symm]
        rw [foldl_min_coe]
      have hmaxside : ((r :: t).foldl (fun a x => max a (f x)) 0) =
          ((r :: t).map f).foldl max 0 := by
        rw [List.foldl_map]
      rw [hminside, hmaxside, WithTop.untop'_coe]

/-- Witness for the amended C3 at a concrete one-observation set with
reciprocal squared spacing `4`: the result is `(1/√4, 1/√4)`. -/
theorem resolution_range_amended_witness :
    (Intensities.resolution_range Real.sqrt
      { data := [⟨⟨2, 0, 0⟩, 0, 1, 1⟩],
        spacegroup := none,
        unit_cell := ⟨fun hkl => (hkl.h : ℝ) * (hkl.h : ℝ)⟩,
        wavelength := 0 }) = (1 / Real.sqrt 4, 1 / Real.sqrt 4) := by
  obtain ⟨m, M, hm, hmb, hM, hMb, heq⟩ := resolution_range_amended
    { data := [⟨⟨2, 0, 0⟩, 0, 1, 1⟩],
      spacegroup := none,
      unit_cell := ⟨fun hkl => (hkl.h : ℝ) * (hkl.h : ℝ)⟩,
      wavelength := 0 } (by simp)
  have hc2 : (((2 : ℤ) : ℝ) * ((2 : ℤ) : ℝ)) = 4 := by norm_num
  simp only [List.map_cons, List.map_nil] at hm hmb hM hMb
  rw [List.mem_singleton] at hm
  have hM4 : M = 4 := by
    rcases List.mem_cons.mp hM with h | h
    · exfalso
      have h4 := hMb (((2 : ℤ) : ℝ) * ((2 : ℤ) : ℝ))
        (List.mem_cons_of_mem _ (List.mem_singleton.mpr rfl))
      rw [hc2] at h4
      rw [h] at h4
      norm_num at h4
    · rw [List.mem_singleton] at h
      rw [h, hc2]
  rw [heq, hm, hM4, hc2]

/-! ### Claim theorems: the unmerged MTZ reader -/

/-- Claim C6: reading unmerged intensities from MTZ fails with an error —
not a default — when the file has no batch records, or when the M/ISYM
column is absent, or present at any position other than the 4th (index 3);
and every observation produced by the ingestion loop comes from a row whose
sign tag is the parity of the packed code in that row's 4th slot: an even
code gives `-1` (Minus), an odd code gives `1` (Plus). -/
theorem mtz_unmerged_schema_and_parity (m : Mtz) (vi si : ℕ) :
    (m.batches = [] →
      read_unmerged_intensities_from_mtz m =
        Except.error (ReadError.failMsg "expected unmerged file")) ∧
    (m.batches ≠ [] → m.column_with_label "M/ISYM" = none →
      read_unmerged_intensities_from_mtz m =
        Except.error
          (ReadError.failMsg "unmerged file should have M/ISYM as 4th column")) ∧
    (∀ c : MtzColumn, m.batches ≠ [] →
      m.column_with_label "M/ISYM" = some c → c.idx ≠ 3 →
      read_unmerged_intensities_from_mtz m =
        Except.error
          (ReadError.failMsg "unmerged file should have M/ISYM as 4th column")) ∧
    (∀ r ∈ mtzUnmergedRefls m vi si,
      ∃ j ∈ mtzRowStarts m, r = mkMtzRefl m vi si j ∧
        r.isign = (if (mtzDatum m (j + 3)).toInt % 2 = 0 then -1 else 1)) := by
  refine ⟨?_, ?_, ?_, ?_⟩
  · intro h
    rw [read_unmerged_intensities_from_mtz, if_pos h]
  · intro hne hcol
    rw [read_unmerged_intensities_from_mtz, if_neg hne, hcol]
  · intro c hne hcol hidx
    rw [read_unmerged_intensities_from_mtz, if_neg hne, hcol]
    simp only [if_pos hidx]
  · intro r hr
    have hchar : mtzUnmergedRefls m vi si =
        ((mtzRowStarts m).map (mkMtzRefl m vi si)).filter acceptRefl := by
      rw [mtzUnmergedRefls]
      exact (foldl_addIfValid (mkMtzRefl m vi si) (mtzRowStarts m) []).trans
        (List.nil_append _)
    rw [hchar] at hr
    obtain ⟨hmem, _⟩ := List.mem_filter.mp hr
    obtain ⟨j, hj, hjr⟩ := List.mem_map.mp hmem
    refine ⟨j, hj, hjr.symm, ?_⟩
    rw [← hjr]
    rfl

/-- Witness for C6: a concrete MTZ with no batch records is rejected as
"expected unmerged file". -/
theorem mtz_unmerged_schema_and_parity_witness :
    read_unmerged_intensities_from_mtz
      { batches := [], columns := [], data := [], spacegroup := none,
        average_batch_cell := ⟨fun _ => Fq.finite 0⟩,
        dataset_wavelength := fun _ => Fq.finite 0 } =
      Except.error (ReadError.failMsg "expected unmerged file") :=
  (mtz_unmerged_schema_and_parity
      { batches := [], columns := [], data := [], spacegroup := none,
        average_batch_cell := ⟨fun _ => Fq.finite 0⟩,
        dataset_wavelength := fun _ => Fq.finite 0 } 0 0).1 rfl

end GemmiMerge
